import Mathlib

/-!
Verification of `scripts/fix-api-params.py`.

The script applies five `re.sub` substitutions (rules A..E) in a fixed order to
each file of a hard-coded list, writes the file back only when the text
changed, and prints one status line per file plus a final blank line and
`Done!`.

The regular expressions involved use only literal characters, the whitespace
class `\s*`, and one negative lookahead `(?!\))`.  We embed them as token
lists (`Tok`) and give an executable matcher `mrun` (returning the number of
characters consumed by a match at the head of the text) and an executable
scanner `subStep` that performs leftmost, non-overlapping replacement of all
occurrences, exactly as `re.sub` does for these patterns (greedy `\s*` never
needs backtracking here because every `\s*` is followed by a literal that
starts with a non-whitespace character).
-/

namespace FixApiParams

/-- Whitespace class of Python `\s` (ASCII range, as used by the script's
patterns): space, tab, newline, carriage return, vertical tab, form feed. -/
def isWsChar (c : Char) : Bool :=
  c = ' ' || c = '\t' || c = '\n' || c = '\r' || c = '\x0b' || c = '\x0c'

/-- A regex token: a literal character sequence, the (greedy) whitespace class
`\s*`, or a single-character negative lookahead `(?!c)`. -/
inductive Tok where
  | lit : List Char → Tok
  | ws : Tok
  | nla : Char → Tok
deriving DecidableEq, Repr

/-- Strip a literal from the head of the text; `some rest` on success. -/
def litStrip : List Char → List Char → Option (List Char)
  | [], cs => some cs
  | _ :: _, [] => none
  | d :: l, c :: cs => if c = d then litStrip l cs else none

/-- Count and remove leading whitespace (the greedy match of `\s*`). -/
def wsStrip : List Char → Nat × List Char
  | [] => (0, [])
  | c :: cs =>
    if isWsChar c then
      let p := wsStrip cs
      (p.1 + 1, p.2)
    else (0, c :: cs)

/-- Run a token list against the head of a text.  Returns the number of
characters consumed when the whole pattern matches there. -/
def mrun : List Tok → List Char → Option Nat
  | [], _ => some 0
  | Tok.lit l :: ts, cs =>
    match litStrip l cs with
    | some cs' => (mrun ts cs').map (· + l.length)
    | none => none
  | Tok.ws :: ts, cs =>
    let p := wsStrip cs
    (mrun ts p.2).map (· + p.1)
  | Tok.nla a :: ts, cs =>
    match cs with
    | [] => mrun ts cs
    | c :: _ => if c = a then none else mrun ts cs

/-- Leftmost, non-overlapping replacement of all occurrences of the pattern
`p` by `r`, as `re.sub` performs it: at every position try a match; on success
emit the replacement and resume after the consumed characters, otherwise copy
one character and move on.  `fuel` bounds the number of scan steps; since every
match of the patterns used here consumes at least one character, `fuel =
text.length` always suffices (a zero-length match is treated as no match,
which is faithful because every pattern of the script starts with a non-empty
literal). -/
def subStep (p : List Tok) (r : List Char) : Nat → List Char → List Char
  | _, [] => []
  | 0, c :: cs => c :: cs
  | fuel + 1, c :: cs =>
    match mrun p (c :: cs) with
    | some (n + 1) => r ++ subStep p r fuel (cs.drop n)
    | _ => c :: subStep p r fuel cs

/-- `re.sub(p, r, cs)` for the patterns of the script. -/
def subRun (p : List Tok) (r : List Char) (cs : List Char) : List Char :=
  subStep p r cs.length cs

/-- Some suffix of the text has a match of `p` at its head. -/
def hasOcc (p : List Tok) : List Char → Bool
  | [] => (mrun p []).isSome
  | c :: cs => (mrun p (c :: cs)).isSome || hasOcc p cs

/-- The literal mismatches the text at a position where the text still has a
character (so no extension of the text can repair the failure). -/
def litClash : List Char → List Char → Bool
  | _, [] => false
  | [], _ => false
  | d :: l, c :: cs => if c = d then litClash l cs else true

/-- The pattern fails on this text in a way that no extension of the text can
repair: `hardFail ts w = true` guarantees `mrun ts (w ++ z) = none` for all
`z`. -/
def hardFail : List Tok → List Char → Bool
  | [], _ => false
  | Tok.lit l :: ts, cs =>
    match litStrip l cs with
    | some cs' => hardFail ts cs'
    | none => litClash l cs
  | Tok.ws :: ts, cs =>
    let p := wsStrip cs
    match p.2 with
    | [] => false
    | _ :: _ => hardFail ts p.2
  | Tok.nla a :: ts, cs =>
    match cs with
    | [] => false
    | c :: _ => if c = a then true else hardFail ts cs

/-- All residual states of a pattern: the token lists that can remain after
an incomplete run of the matcher has consumed some characters. -/
def resid : List Tok → List (List Tok)
  | [] => [[]]
  | Tok.lit l :: ts => (l.tails.map fun l' => Tok.lit l' :: ts) ++ resid ts
  | Tok.ws :: ts => (Tok.ws :: ts) :: resid ts
  | Tok.nla a :: ts => (Tok.nla a :: ts) :: resid ts

/-- Residual states that can accept immediately (consuming nothing) on any
text whose head is not `')'`; these are exactly the terminal states of the
patterns below. -/
def accStates : List (List Tok) :=
  [[Tok.lit []], [Tok.lit [], Tok.nla ')'], [Tok.nla ')']]

/-! ### The five rules of the script

Patterns and replacement texts transcribed from the `re.sub` calls of
`scripts/fix-api-params.py`.  Braces are written with `\x7b` / `\x7d`
escapes. -/

/-- Rule A pattern:
`\{\s*params\s*\}:\s*\{\s*params:\s*\{\s*id:\s*string\s*\}\s*\}`. -/
def patA : List Tok :=
  [Tok.lit "\x7b".toList, Tok.ws, Tok.lit "params".toList, Tok.ws,
   Tok.lit "\x7d:".toList, Tok.ws, Tok.lit "\x7b".toList, Tok.ws,
   Tok.lit "params:".toList, Tok.ws, Tok.lit "\x7b".toList, Tok.ws,
   Tok.lit "id:".toList, Tok.ws, Tok.lit "string".toList, Tok.ws,
   Tok.lit "\x7d".toList, Tok.ws, Tok.lit "\x7d".toList]

/-- Rule A replacement: `{ params }: { params: Promise<{ id: string }> }`. -/
def replA : List Char :=
  "\x7b params \x7d: \x7b params: Promise<\x7b id: string \x7d> \x7d".toList

/-- Rule B pattern:
`\{\s*params\s*\}:\s*\{\s*params:\s*\{\s*id:\s*string,\s*roleId:\s*string\s*\}\s*\}`. -/
def patB : List Tok :=
  [Tok.lit "\x7b".toList, Tok.ws, Tok.lit "params".toList, Tok.ws,
   Tok.lit "\x7d:".toList, Tok.ws, Tok.lit "\x7b".toList, Tok.ws,
   Tok.lit "params:".toList, Tok.ws, Tok.lit "\x7b".toList, Tok.ws,
   Tok.lit "id:".toList, Tok.ws, Tok.lit "string,".toList, Tok.ws,
   Tok.lit "roleId:".toList, Tok.ws, Tok.lit "string".toList, Tok.ws,
   Tok.lit "\x7d".toList, Tok.ws, Tok.lit "\x7d".toList]

/-- Rule B replacement:
`{ params }: { params: Promise<{ id: string, roleId: string }> }`. -/
def replB : List Char :=
  "\x7b params \x7d: \x7b params: Promise<\x7b id: string, roleId: string \x7d> \x7d".toList

/-- Rule C pattern: `const id = parseInt\(params\.id\)`. -/
def patC : List Tok := [Tok.lit "const id = parseInt(params.id)".toList]

/-- Rule C replacement (with the embedded newline and four-space indent of the
Python source string). -/
def replC : List Char :=
  "const \x7b id: paramId \x7d = await params\n    const id = parseInt(paramId)".toList

/-- Rule D pattern: `const id = params\.id(?!\))`. -/
def patD : List Tok := [Tok.lit "const id = params.id".toList, Tok.nla ')']

/-- Rule D replacement: `const { id } = await params`. -/
def replD : List Char := "const \x7b id \x7d = await params".toList

/-- Rule E pattern: `const roleId = params\.roleId`. -/
def patE : List Tok := [Tok.lit "const roleId = params.roleId".toList]

/-- Rule E replacement: `const { roleId } = await params`. -/
def replE : List Char := "const \x7b roleId \x7d = await params".toList

/-- The first `re.sub` of the script. -/
def ruleA (cs : List Char) : List Char := subRun patA replA cs

/-- The second `re.sub` of the script. -/
def ruleB (cs : List Char) : List Char := subRun patB replB cs

/-- The third `re.sub` of the script. -/
def ruleC (cs : List Char) : List Char := subRun patC replC cs

/-- The fourth `re.sub` of the script. -/
def ruleD (cs : List Char) : List Char := subRun patD replD cs

/-- The fifth `re.sub` of the script. -/
def ruleE (cs : List Char) : List Char := subRun patE replE cs

/-- The whole per-file text transform: the five rules in source order, each
operating on the output of the previous one. -/
def transform (cs : List Char) : List Char :=
  ruleE (ruleD (ruleC (ruleB (ruleA cs))))

/-! ### The file loop -/

/-- The hard-coded `files_to_fix` list of the script, in declared order. -/
def files_to_fix : List (List Char) :=
  ["src/app/api/series/[id]/route.ts".toList,
   "src/app/api/warehouses/[id]/route.ts".toList,
   "src/app/api/warehouses/[id]/deactivate/route.ts".toList,
   "src/app/api/warehouses/[id]/activate/route.ts".toList,
   "src/app/api/admin/users/[id]/route.ts".toList,
   "src/app/api/admin/users/[id]/roles/route.ts".toList,
   "src/app/api/admin/users/[id]/roles/[roleId]/route.ts".toList,
   "src/app/api/titles/[id]/stock-threshold/route.ts".toList,
   "src/app/api/audit/users/[id]/route.ts".toList,
   "src/app/api/inventory/[id]/route.ts".toList,
   "src/app/api/inventory/[id]/adjust/route.ts".toList]

/-- Outcome of the attempt to read one file: the file's text, a
`FileNotFoundError`, or any other per-file exception with its message. -/
inductive ReadResult where
  | found : List Char → ReadResult
  | missing : ReadResult
  | ioError : List Char → ReadResult

/-- Status reported for one file. -/
inductive Status where
  | fixed : Status
  | noChanges : Status
  | notFound : Status
  | errorProc : List Char → Status
deriving DecidableEq

/-- Per-file body of the loop: the status to report and the content written
back, if any (`none` means the file is not written). -/
def processFile : ReadResult → Status × Option (List Char)
  | ReadResult.found c =>
    if transform c = c then (Status.noChanges, none)
    else (Status.fixed, some (transform c))
  | ReadResult.missing => (Status.notFound, none)
  | ReadResult.ioError e => (Status.errorProc e, none)

/-- Render a status line exactly as the script prints it. -/
def renderLine (p : List Char) : Status → List Char
  | Status.fixed => "✅ Fixed: ".toList ++ p
  | Status.noChanges => "⏭️  No changes: ".toList ++ p
  | Status.notFound => "❌ Not found: ".toList ++ p
  | Status.errorProc e => "❌ Error processing ".toList ++ p ++ ": ".toList ++ e

/-- The status line the run prints for path `p` under file system `env`. -/
def fileLine (env : List Char → ReadResult) (p : List Char) : List Char :=
  renderLine p (processFile (env p)).1

/-- Console output of the whole run, as a list of lines: one status line per
listed path in list order, then the blank line and `Done!` printed by the
final `print('\nDone!')`. -/
def runLines (env : List Char → ReadResult) : List (List Char) :=
  files_to_fix.map (fileLine env) ++ [[], "Done!".toList]

/-- The write actions of the run: `(path, content)` for every file the run
overwrites, in list order. -/
def runWrites (env : List Char → ReadResult) : List (List Char × List Char) :=
  files_to_fix.filterMap fun p => ((processFile (env p)).2).map fun w => (p, w)

/-! ### Decidable side conditions for the no-rematch analysis -/

/-- Every suffix of the replacement `r` hard-fails the pattern `q`: no
occurrence of `q` can start inside an inserted copy of `r`. -/
def checkOff (q : List Tok) (r : List Char) : Bool :=
  (List.range r.length).all fun i => hardFail q (r.drop i)

/-- Every residual state of `q` either hard-fails on `r` or is one of the
accepting terminal states: an incomplete match of `q` can never continue into an
inserted copy of `r`. -/
def checkResid (q : List Tok) (r : List Char) : Bool :=
  (resid q).all fun s => s == ([] : List Tok) || accStates.contains s || hardFail s r

/-- Total number of pending characters and tokens in a residual state. -/
def tsWeight : List Tok → Nat
  | [] => 0
  | Tok.lit l :: ts => l.length + 1 + tsWeight ts
  | Tok.ws :: ts => 1 + tsWeight ts
  | Tok.nla _ :: ts => 1 + tsWeight ts

/-- The token list matches exactly this text (with whitespace tokens matching
whitespace-only stretches, each followed by a non-whitespace character). -/
inductive MatchesTk : List Tok → List Char → Prop where
  | nil : MatchesTk [] []
  | lit (l : List Char) {ts : List Tok} {w : List Char} :
      MatchesTk ts w → MatchesTk (Tok.lit l :: ts) (l ++ w)
  | ws (ww : List Char) {ts : List Tok} {c : Char} {w : List Char} :
      (∀ a ∈ ww, isWsChar a = true) → isWsChar c = false →
      MatchesTk ts (c :: w) → MatchesTk (Tok.ws :: ts) (ww ++ c :: w)

/-- A whitespace-only stretch of text (in the sense of the `\s` class). -/
def wsOnly (w : List Char) : Prop := ∀ c ∈ w, isWsChar c = true

instance (w : List Char) : Decidable (wsOnly w) :=
  inferInstanceAs (Decidable (∀ c ∈ w, isWsChar c = true))

/-- The Rule A signature text with explicit whitespace stretches `w1 .. w9`
in the nine `\s*` positions of the pattern. -/
def sigA (w1 w2 w3 w4 w5 w6 w7 w8 w9 : List Char) : List Char :=
  "\x7b".toList ++ (w1 ++ ("params".toList ++ (w2 ++ ("\x7d:".toList ++
    (w3 ++ ("\x7b".toList ++ (w4 ++ ("params:".toList ++ (w5 ++
      ("\x7b".toList ++ (w6 ++ ("id:".toList ++ (w7 ++ ("string".toList ++
        (w8 ++ ("\x7d".toList ++ (w9 ++ "\x7d".toList)))))))))))))))))

/-! ### Step equations for the matcher -/

theorem map_add_zero (o : Option Nat) : o.map (· + 0) = o := by
  cases o <;> rfl

theorem mrun_nil_toks (cs : List Char) : mrun [] cs = some 0 := rfl

theorem mrun_lit_nil (ts : List Tok) (cs : List Char) :
    mrun (Tok.lit [] :: ts) cs = mrun ts cs := by
  show (mrun ts cs).map (· + 0) = mrun ts cs
  exact map_add_zero _

theorem mrun_lit_cons (d : Char) (l : List Char) (ts : List Tok) (c : Char)
    (cs : List Char) :
    mrun (Tok.lit (d :: l) :: ts) (c :: cs) =
      if c = d then (mrun (Tok.lit l :: ts) cs).map (· + 1) else none := by
  by_cases h : c = d
  · simp only [mrun, litStrip, h, if_pos]
    cases hs : litStrip l cs with
    | none => rfl
    | some cs' =>
      show (mrun ts cs').map (· + (d :: l).length) =
        ((mrun ts cs').map (· + l.length)).map (· + 1)
      cases mrun ts cs' <;> simp [Nat.add_assoc, Nat.add_comm]
  · simp [mrun, litStrip, h]

theorem mrun_lit_text_nil (d : Char) (l : List Char) (ts : List Tok) :
    mrun (Tok.lit (d :: l) :: ts) [] = none := rfl

theorem mrun_ws_text_nil (ts : List Tok) :
    mrun (Tok.ws :: ts) [] = mrun ts [] := by
  show (mrun ts []).map (· + 0) = mrun ts []
  exact map_add_zero _

theorem mrun_ws_cons_ws {c : Char} (h : isWsChar c = true) (ts : List Tok)
    (cs : List Char) :
    mrun (Tok.ws :: ts) (c :: cs) = (mrun (Tok.ws :: ts) cs).map (· + 1) := by
  show (mrun ts (wsStrip (c :: cs)).2).map (· + (wsStrip (c :: cs)).1) = _
  simp only [wsStrip, h, if_pos]
  show _ = ((mrun ts (wsStrip cs).2).map (· + (wsStrip cs).1)).map (· + 1)
  cases mrun ts (wsStrip cs).2 <;> simp [Nat.add_comm, Nat.add_assoc]

theorem mrun_ws_cons_nonws {c : Char} (h : isWsChar c = false) (ts : List Tok)
    (cs : List Char) :
    mrun (Tok.ws :: ts) (c :: cs) = mrun ts (c :: cs) := by
  show (mrun ts (wsStrip (c :: cs)).2).map (· + (wsStrip (c :: cs)).1) = _
  simp only [wsStrip, h, Bool.false_eq_true, if_neg, not_false_iff]
  exact map_add_zero _

theorem mrun_nla_text_nil (a : Char) (ts : List Tok) :
    mrun (Tok.nla a :: ts) [] = mrun ts [] := rfl

theorem mrun_nla_cons (a : Char) (ts : List Tok) (c : Char) (cs : List Char) :
    mrun (Tok.nla a :: ts) (c :: cs) =
      if c = a then none else mrun ts (c :: cs) := rfl

/-! ### Hard failures are stable under extending the text to the right -/

theorem litStrip_append {l w w' : List Char} (h : litStrip l w = some w')
    (z : List Char) : litStrip l (w ++ z) = some (w' ++ z) := by
  induction l generalizing w with
  | nil =>
    simp only [litStrip] at h
    cases h
    rfl
  | cons d l ih =>
    cases w with
    | nil => simp [litStrip] at h
    | cons c w =>
      simp only [litStrip] at h ⊢
      by_cases hc : c = d
      · simp only [hc, if_pos] at h ⊢
        exact ih h
      · simp [hc] at h

theorem litClash_append {l w : List Char} (h : litClash l w = true)
    (z : List Char) : litStrip l (w ++ z) = none := by
  induction l generalizing w with
  | nil =>
    cases w <;> simp [litClash] at h
  | cons d l ih =>
    cases w with
    | nil => simp [litClash] at h
    | cons c w =>
      simp only [litClash] at h
      simp only [List.cons_append, litStrip]
      by_cases hc : c = d
      · simp only [hc, if_pos] at h ⊢
        exact ih h
      · simp [hc]

theorem wsStrip_append {w : List Char} {c : Char} {rest : List Char}
    (h : (wsStrip w).2 = c :: rest) (z : List Char) :
    wsStrip (w ++ z) = ((wsStrip w).1, c :: rest ++ z) := by
  induction w with
  | nil => simp [wsStrip] at h
  | cons b w ih =>
    by_cases hb : isWsChar b
    · have h' : (wsStrip w).2 = c :: rest := by simpa [wsStrip, hb] using h
      rw [List.cons_append]
      simp [wsStrip, hb, ih h']
    · have h' : b = c ∧ w = rest := by
        have hx : (0, b :: w).2 = c :: rest := by simpa [wsStrip, hb] using h
        simpa using hx
      obtain ⟨rfl, rfl⟩ := h'
      rw [List.cons_append]
      simp [wsStrip, hb]

theorem hardFail_ext {ts : List Tok} {w : List Char}
    (h : hardFail ts w = true) (z : List Char) : mrun ts (w ++ z) = none := by
  induction ts generalizing w with
  | nil => simp [hardFail] at h
  | cons t ts ih =>
    cases t with
    | lit l =>
      simp only [hardFail] at h
      cases hs : litStrip l w with
      | some w' =>
        rw [hs] at h
        simp only [mrun, litStrip_append hs z]
        rw [ih h]
        rfl
      | none =>
        rw [hs] at h
        simp only [mrun, litClash_append h z]
    | ws =>
      simp only [hardFail] at h
      cases hs : (wsStrip w).2 with
      | nil => rw [hs] at h; simp at h
      | cons c rest =>
        rw [hs] at h
        simp only [mrun, wsStrip_append hs z]
        rw [ih h]
        rfl
    | nla a =>
      simp only [hardFail] at h
      cases w with
      | nil => simp at h
      | cons c w =>
        simp only [List.cons_append, mrun]
        by_cases hc : c = a
        · simp [hc]
        · simp only [hc, if_neg, not_false_iff] at h ⊢
          have hx := ih (w := c :: w) h
          rwa [List.cons_append] at hx

/-! ### Equations for the scanner -/

theorem subStep_text_nil (p : List Tok) (r : List Char) (fuel : Nat) :
    subStep p r fuel [] = [] := by
  cases fuel <;> rfl

theorem subStep_fuel_zero (p : List Tok) (r : List Char) (cs : List Char) :
    subStep p r 0 cs = cs := by
  cases cs <;> rfl

theorem subStep_match {p : List Tok} {c : Char} {cs : List Char} {n : Nat}
    (r : List Char) (fuel : Nat) (h : mrun p (c :: cs) = some (n + 1)) :
    subStep p r (fuel + 1) (c :: cs) = r ++ subStep p r fuel (cs.drop n) := by
  simp [subStep, h]

theorem subStep_copy_none {p : List Tok} {c : Char} {cs : List Char}
    (r : List Char) (fuel : Nat) (h : mrun p (c :: cs) = none) :
    subStep p r (fuel + 1) (c :: cs) = c :: subStep p r fuel cs := by
  simp [subStep, h]

theorem subStep_copy_zero {p : List Tok} {c : Char} {cs : List Char}
    (r : List Char) (fuel : Nat) (h : mrun p (c :: cs) = some 0) :
    subStep p r (fuel + 1) (c :: cs) = c :: subStep p r fuel cs := by
  simp [subStep, h]

/-! ### Occurrence lemmas -/

theorem hasOcc_cons (p : List Tok) (c : Char) (cs : List Char) :
    hasOcc p (c :: cs) = ((mrun p (c :: cs)).isSome || hasOcc p cs) := rfl

theorem hasOcc_tail {p : List Tok} {c : Char} {cs : List Char}
    (h : hasOcc p (c :: cs) = false) : hasOcc p cs = false := by
  rw [hasOcc_cons] at h
  exact (Bool.or_eq_false_iff.mp h).2

theorem hasOcc_head {p : List Tok} {c : Char} {cs : List Char}
    (h : hasOcc p (c :: cs) = false) : mrun p (c :: cs) = none := by
  cases hm : mrun p (c :: cs) with
  | none => rfl
  | some n => rw [hasOcc_cons, hm] at h; simp at h

theorem hasOcc_drop {p : List Tok} {cs : List Char} (h : hasOcc p cs = false) :
    ∀ k, hasOcc p (cs.drop k) = false := by
  induction cs with
  | nil => intro k; simpa using h
  | cons c cs ih =>
    intro k
    cases k with
    | zero => exact h
    | succ k => exact ih (hasOcc_tail h) k

theorem hasOcc_append_false {q : List Tok} {r Z : List Char}
    (h1 : ∀ i, i < r.length → mrun q (r.drop i ++ Z) = none)
    (h2 : hasOcc q Z = false) : hasOcc q (r ++ Z) = false := by
  induction r with
  | nil => simpa using h2
  | cons c r ih =>
    rw [List.cons_append, hasOcc_cons]
    have h0 : mrun q (c :: (r ++ Z)) = none := by
      have := h1 0 (by simp)
      simpa using this
    rw [h0]
    simp only [Option.isSome_none, Bool.false_or]
    exact ih fun i hi => by
      have := h1 (i + 1) (by simpa using Nat.succ_lt_succ hi)
      simpa using this

/-! ### Residual states -/

theorem self_mem_resid : ∀ ts : List Tok, ts ∈ resid ts := by
  intro ts
  cases ts with
  | nil => simp [resid]
  | cons t ts =>
    cases t with
    | lit l =>
      simp only [resid, List.mem_append, List.mem_map]
      exact Or.inl ⟨l, by simp [List.mem_tails], rfl⟩
    | ws => simp [resid]
    | nla a => simp [resid]

theorem resid_subset_cons (t : Tok) (ts : List Tok) :
    resid ts ⊆ resid (t :: ts) := by
  cases t with
  | lit l => exact fun x hx => List.mem_append_right _ hx
  | ws => exact fun x hx => List.mem_cons_of_mem _ hx
  | nla a => exact fun x hx => List.mem_cons_of_mem _ hx

theorem resid_closed_lit {q : List Tok} {d : Char} {l : List Char}
    {ts : List Tok} (h : Tok.lit (d :: l) :: ts ∈ resid q) :
    Tok.lit l :: ts ∈ resid q := by
  induction q with
  | nil => simp [resid] at h
  | cons t q ih =>
    cases t with
    | lit l0 =>
      rcases List.mem_append.mp h with h1 | h2
      · obtain ⟨l', hl', heq⟩ := List.mem_map.mp h1
        injection heq with he1 he2
        injection he1 with he3
        subst he3; subst he2
        refine List.mem_append_left _ (List.mem_map.mpr ⟨l, ?_, rfl⟩)
        rw [List.mem_tails] at hl' ⊢
        exact (List.suffix_cons d l).trans hl'
      · exact resid_subset_cons _ _ (ih h2)
    | ws =>
      rcases List.mem_cons.mp h with h1 | h2
      · simp at h1
      · exact resid_subset_cons _ _ (ih h2)
    | nla a =>
      rcases List.mem_cons.mp h with h1 | h2
      · simp at h1
      · exact resid_subset_cons _ _ (ih h2)

theorem resid_closed_litnil {q : List Tok} {ts : List Tok}
    (h : Tok.lit [] :: ts ∈ resid q) : ts ∈ resid q := by
  induction q with
  | nil => simp [resid] at h
  | cons t q ih =>
    cases t with
    | lit l0 =>
      rcases List.mem_append.mp h with h1 | h2
      · obtain ⟨l', hl', heq⟩ := List.mem_map.mp h1
        injection heq with he1 he2
        subst he2
        exact resid_subset_cons _ _ (self_mem_resid _)
      · exact resid_subset_cons _ _ (ih h2)
    | ws =>
      rcases List.mem_cons.mp h with h1 | h2
      · simp at h1
      · exact resid_subset_cons _ _ (ih h2)
    | nla a =>
      rcases List.mem_cons.mp h with h1 | h2
      · simp at h1
      · exact resid_subset_cons _ _ (ih h2)

theorem resid_closed_ws {q : List Tok} {ts : List Tok}
    (h : Tok.ws :: ts ∈ resid q) : ts ∈ resid q := by
  induction q with
  | nil => simp [resid] at h
  | cons t q ih =>
    cases t with
    | lit l0 =>
      rcases List.mem_append.mp h with h1 | h2
      · obtain ⟨l', hl', heq⟩ := List.mem_map.mp h1
        injection heq with he1 he2
        exact absurd he1 (by simp)
      · exact resid_subset_cons _ _ (ih h2)
    | ws =>
      rcases List.mem_cons.mp h with h1 | h2
      · injection h1 with he1 he2
        subst he2
        exact resid_subset_cons _ _ (self_mem_resid _)
      · exact resid_subset_cons _ _ (ih h2)
    | nla a =>
      rcases List.mem_cons.mp h with h1 | h2
      · simp at h1
      · exact resid_subset_cons _ _ (ih h2)

theorem resid_closed_nla {q : List Tok} {a : Char} {ts : List Tok}
    (h : Tok.nla a :: ts ∈ resid q) : ts ∈ resid q := by
  induction q with
  | nil => simp [resid] at h
  | cons t q ih =>
    cases t with
    | lit l0 =>
      rcases List.mem_append.mp h with h1 | h2
      · obtain ⟨l', hl', heq⟩ := List.mem_map.mp h1
        injection heq with he1 he2
        exact absurd he1 (by simp)
      · exact resid_subset_cons _ _ (ih h2)
    | ws =>
      rcases List.mem_cons.mp h with h1 | h2
      · simp at h1
      · exact resid_subset_cons _ _ (ih h2)
    | nla b =>
      rcases List.mem_cons.mp h with h1 | h2
      · injection h1 with he1 he2
        subst he2
        exact resid_subset_cons _ _ (self_mem_resid _)
      · exact resid_subset_cons _ _ (ih h2)

/-! ### Accepting states and head-shape facts -/

theorem accStates_mrun {s : List Tok} (hs : s ∈ accStates) {c : Char}
    (hc : ¬c = ')') (cs : List Char) : mrun s (c :: cs) = some 0 := by
  fin_cases hs
  · rfl
  · show ((mrun [Tok.nla ')'] (c :: cs)).map (· + 0)) = some 0
    rw [mrun_nla_cons, if_neg hc]
    rfl
  · rw [mrun_nla_cons, if_neg hc]
    rfl

theorem mrun_head_lit {d : Char} {l : List Char} {ts : List Tok}
    {cs : List Char} {n : Nat} (h : mrun (Tok.lit (d :: l) :: ts) cs = some n) :
    ∃ cs', cs = d :: cs' := by
  cases cs with
  | nil => rw [mrun_lit_text_nil] at h; cases h
  | cons c cs =>
    rw [mrun_lit_cons] at h
    by_cases hc : c = d
    · exact ⟨cs, by rw [hc]⟩
    · rw [if_neg hc] at h; cases h

theorem mrun_head_lit_pos {d : Char} {l : List Char} {ts : List Tok}
    {cs : List Char} {n : Nat} (h : mrun (Tok.lit (d :: l) :: ts) cs = some n) :
    0 < n := by
  obtain ⟨cs', rfl⟩ := mrun_head_lit h
  rw [mrun_lit_cons, if_pos rfl] at h
  cases hm : mrun (Tok.lit l :: ts) cs' with
  | none => rw [hm] at h; cases h
  | some m =>
    rw [hm] at h
    have : m + 1 = n := by simpa using h
    omega

/-! ### The no-rematch argument

The next lemmas show that, for a rule with pattern `p` and replacement `r`
satisfying the decidable side conditions `checkOff` / `checkResid`, running
the scanner cannot create new occurrences: a pattern `q` that matches nowhere
in the input matches nowhere in the output, and the rule's own pattern
matches nowhere in the rule's output. -/

theorem mrun_copy_transfer {q : List Tok} {c : Char} {cs Z : List Char}
    (cont : ∀ s' ∈ resid q, mrun s' cs = none → mrun s' Z = none) :
    ∀ W s, tsWeight s ≤ W → s ∈ resid q → mrun s (c :: cs) = none →
      mrun s (c :: Z) = none := by
  intro W
  induction W with
  | zero =>
    intro s hW hs hnone
    cases s with
    | nil => rw [mrun_nil_toks] at hnone; cases hnone
    | cons t s' => cases t <;> simp [tsWeight] at hW
  | succ W ih =>
    intro s hW hs hnone
    cases s with
    | nil => rw [mrun_nil_toks] at hnone; cases hnone
    | cons t s' =>
      cases t with
      | lit l =>
        cases l with
        | nil =>
          rw [mrun_lit_nil] at hnone ⊢
          refine ih s' ?_ (resid_closed_litnil hs) hnone
          simp [tsWeight] at hW; omega
        | cons d l' =>
          rw [mrun_lit_cons] at hnone ⊢
          by_cases hc : c = d
          · rw [if_pos hc] at hnone ⊢
            have h1 : mrun (Tok.lit l' :: s') cs = none :=
              Option.map_eq_none'.mp hnone
            rw [cont _ (resid_closed_lit hs) h1]
            rfl
          · rw [if_neg hc]
      | ws =>
        by_cases hc : isWsChar c = true
        · rw [mrun_ws_cons_ws hc] at hnone ⊢
          have h1 : mrun (Tok.ws :: s') cs = none := Option.map_eq_none'.mp hnone
          rw [cont _ hs h1]
          rfl
        · have hc' : isWsChar c = false := by simpa using hc
          rw [mrun_ws_cons_nonws hc'] at hnone ⊢
          refine ih s' ?_ (resid_closed_ws hs) hnone
          simp [tsWeight] at hW; omega
      | nla a =>
        rw [mrun_nla_cons] at hnone ⊢
        by_cases hc : c = a
        · rw [if_pos hc]
        · rw [if_neg hc] at hnone ⊢
          refine ih s' ?_ (resid_closed_nla hs) hnone
          simp [tsWeight] at hW; omega

theorem transfer_no_match {p q : List Tok} {r : List Char}
    (hp : ∃ c0 l0 p0, p = Tok.lit (c0 :: l0) :: p0 ∧ ¬c0 = ')')
    (hres : ∀ s ∈ resid q, s ≠ [] → hardFail s r = true ∨ s ∈ accStates) :
    ∀ fuel cs s, s ∈ resid q → mrun s cs = none →
      mrun s (subStep p r fuel cs) = none := by
  intro fuel
  induction fuel with
  | zero =>
    intro cs s hs hnone
    rw [subStep_fuel_zero]
    exact hnone
  | succ fuel ih =>
    intro cs s hs hnone
    cases cs with
    | nil =>
      rw [subStep_text_nil]
      exact hnone
    | cons c cs =>
      obtain ⟨c0, l0, p0, hpe, hc0⟩ := hp
      cases hm : mrun p (c :: cs) with
      | none =>
        rw [subStep_copy_none r fuel hm]
        exact mrun_copy_transfer (fun s' hs' h' => ih cs s' hs' h')
          (tsWeight s) s le_rfl hs hnone
      | some n =>
        cases n with
        | zero =>
          exact absurd (mrun_head_lit_pos (hpe ▸ hm)) (by omega)
        | succ n =>
          rw [subStep_match r fuel hm]
          by_cases hnil : s = []
          · subst hnil
            rw [mrun_nil_toks] at hnone
            cases hnone
          rcases hres s hs hnil with hHF | hAcc
          · exact hardFail_ext hHF _
          · obtain ⟨cs', hcs⟩ := mrun_head_lit (hpe ▸ hm)
            have hcc : c = c0 := by injection hcs
            rw [accStates_mrun hAcc (hcc ▸ hc0) cs] at hnone
            cases hnone

theorem sub_self_no_occ {p : List Tok} {r : List Char}
    (hp : ∃ c0 l0 p0, p = Tok.lit (c0 :: l0) :: p0 ∧ ¬c0 = ')')
    (hoff : ∀ i, i < r.length → hardFail p (r.drop i) = true)
    (hres : ∀ s ∈ resid p, s ≠ [] → hardFail s r = true ∨ s ∈ accStates) :
    ∀ fuel cs, cs.length ≤ fuel → hasOcc p (subStep p r fuel cs) = false := by
  have hnilmatch : hasOcc p [] = false := by
    obtain ⟨c0, l0, p0, hpe, hc0⟩ := hp
    show (mrun p []).isSome = false
    rw [hpe, mrun_lit_text_nil]
    rfl
  intro fuel
  induction fuel with
  | zero =>
    intro cs hlen
    have : cs = [] := List.eq_nil_of_length_eq_zero (by omega)
    subst this
    rw [subStep_text_nil]
    exact hnilmatch
  | succ fuel ih =>
    intro cs hlen
    cases cs with
    | nil =>
      rw [subStep_text_nil]
      exact hnilmatch
    | cons c cs =>
      cases hm : mrun p (c :: cs) with
      | none =>
        rw [subStep_copy_none r fuel hm, hasOcc_cons]
        have h1 : mrun p (c :: subStep p r fuel cs) = none := by
          have h2 := transfer_no_match hp hres (fuel + 1) (c :: cs) p
            (self_mem_resid p) hm
          rwa [subStep_copy_none r fuel hm] at h2
        rw [h1]
        simp only [Option.isSome_none, Bool.false_or]
        refine ih cs ?_
        simp at hlen; omega
      | some n =>
        cases n with
        | zero =>
          obtain ⟨c0, l0, p0, hpe, hc0⟩ := hp
          exact absurd (mrun_head_lit_pos (hpe ▸ hm)) (by omega)
        | succ n =>
          rw [subStep_match r fuel hm]
          refine hasOcc_append_false (fun i hi => hardFail_ext (hoff i hi) _) ?_
          refine ih (cs.drop n) ?_
          simp at hlen ⊢
          omega

theorem sub_pres_no_occ {p q : List Tok} {r : List Char}
    (hp : ∃ c0 l0 p0, p = Tok.lit (c0 :: l0) :: p0 ∧ ¬c0 = ')')
    (hoff : ∀ i, i < r.length → hardFail q (r.drop i) = true)
    (hres : ∀ s ∈ resid q, s ≠ [] → hardFail s r = true ∨ s ∈ accStates) :
    ∀ fuel cs, hasOcc q cs = false → hasOcc q (subStep p r fuel cs) = false := by
  intro fuel
  induction fuel with
  | zero =>
    intro cs hocc
    rw [subStep_fuel_zero]
    exact hocc
  | succ fuel ih =>
    intro cs hocc
    cases cs with
    | nil =>
      rw [subStep_text_nil]
      exact hocc
    | cons c cs =>
      cases hm : mrun p (c :: cs) with
      | none =>
        rw [subStep_copy_none r fuel hm, hasOcc_cons]
        have h1 : mrun q (c :: subStep p r fuel cs) = none := by
          have h2 := transfer_no_match hp hres (fuel + 1) (c :: cs) q
            (self_mem_resid q) (hasOcc_head hocc)
          rwa [subStep_copy_none r fuel hm] at h2
        rw [h1]
        simp only [Option.isSome_none, Bool.false_or]
        exact ih cs (hasOcc_tail hocc)
      | some n =>
        cases n with
        | zero =>
          obtain ⟨c0, l0, p0, hpe, hc0⟩ := hp
          exact absurd (mrun_head_lit_pos (hpe ▸ hm)) (by omega)
        | succ n =>
          rw [subStep_match r fuel hm]
          refine hasOcc_append_false (fun i hi => hardFail_ext (hoff i hi) _) ?_
          exact ih (cs.drop n) (hasOcc_drop (hasOcc_tail hocc) n)

theorem sub_no_occ_id {p : List Tok} {r : List Char} :
    ∀ fuel cs, hasOcc p cs = false → subStep p r fuel cs = cs := by
  intro fuel
  induction fuel with
  | zero =>
    intro cs hocc
    rw [subStep_fuel_zero]
  | succ fuel ih =>
    intro cs hocc
    cases cs with
    | nil => rw [subStep_text_nil]
    | cons c cs =>
      rw [subStep_copy_none r fuel (hasOcc_head hocc)]
      rw [ih cs (hasOcc_tail hocc)]

theorem subStep_fuel_irrel {p : List Tok} {r : List Char} :
    ∀ f1 f2 cs, cs.length ≤ f1 → cs.length ≤ f2 →
      subStep p r f1 cs = subStep p r f2 cs := by
  intro f1
  induction f1 with
  | zero =>
    intro f2 cs h1 h2
    have : cs = [] := List.eq_nil_of_length_eq_zero (by omega)
    subst this
    rw [subStep_text_nil, subStep_text_nil]
  | succ f1 ih =>
    intro f2 cs h1 h2
    cases cs with
    | nil => rw [subStep_text_nil, subStep_text_nil]
    | cons c cs =>
      cases f2 with
      | zero => simp at h2
      | succ f2 =>
        cases hm : mrun p (c :: cs) with
        | none =>
          rw [subStep_copy_none r f1 hm, subStep_copy_none r f2 hm]
          have := ih f2 cs (by simp at h1; omega) (by simp at h2; omega)
          rw [this]
        | some n =>
          cases n with
          | zero =>
            rw [subStep_copy_zero r f1 hm, subStep_copy_zero r f2 hm]
            have := ih f2 cs (by simp at h1; omega) (by simp at h2; omega)
            rw [this]
          | succ n =>
            rw [subStep_match r f1 hm, subStep_match r f2 hm]
            have := ih f2 (cs.drop n) (by simp at h1 ⊢; omega)
              (by simp at h2 ⊢; omega)
            rw [this]

/-! ### Discharging the side conditions for the five rules -/

theorem hoff_of_check {q : List Tok} {r : List Char} (h : checkOff q r = true) :
    ∀ i, i < r.length → hardFail q (r.drop i) = true := by
  intro i hi
  exact List.all_eq_true.mp h _ (List.mem_range.mpr hi)

theorem hres_of_check {q : List Tok} {r : List Char}
    (h : checkResid q r = true) :
    ∀ s ∈ resid q, s ≠ [] → hardFail s r = true ∨ s ∈ accStates := by
  intro s hs hnil
  have h1 := List.all_eq_true.mp h s hs
  rcases Bool.or_eq_true_iff.mp h1 with h2 | h3
  · rcases Bool.or_eq_true_iff.mp h2 with h4 | h5
    · exact absurd (eq_of_beq h4) hnil
    · exact Or.inr (List.mem_of_elem_eq_true h5)
  · exact Or.inl h3

theorem patA_shape :
    ∃ c0 l0 p0, patA = Tok.lit (c0 :: l0) :: p0 ∧ ¬c0 = ')' :=
  ⟨'\x7b', [], _, rfl, by decide⟩

theorem patB_shape :
    ∃ c0 l0 p0, patB = Tok.lit (c0 :: l0) :: p0 ∧ ¬c0 = ')' :=
  ⟨'\x7b', [], _, rfl, by decide⟩

theorem patC_shape :
    ∃ c0 l0 p0, patC = Tok.lit (c0 :: l0) :: p0 ∧ ¬c0 = ')' :=
  ⟨'c', "onst id = parseInt(params.id)".toList, _, rfl, by decide⟩

theorem patD_shape :
    ∃ c0 l0 p0, patD = Tok.lit (c0 :: l0) :: p0 ∧ ¬c0 = ')' :=
  ⟨'c', "onst id = params.id".toList, _, rfl, by decide⟩

theorem patE_shape :
    ∃ c0 l0 p0, patE = Tok.lit (c0 :: l0) :: p0 ∧ ¬c0 = ')' :=
  ⟨'c', "onst roleId = params.roleId".toList, _, rfl, by decide⟩

theorem chkOffAA : checkOff patA replA = true := by decide

theorem chkResAA : checkResid patA replA = true := by decide

theorem chkOffAB : checkOff patA replB = true := by decide

theorem chkResAB : checkResid patA replB = true := by decide

theorem chkOffAC : checkOff patA replC = true := by decide

theorem chkResAC : checkResid patA replC = true := by decide

theorem chkOffAD : checkOff patA replD = true := by decide

theorem chkResAD : checkResid patA replD = true := by decide

theorem chkOffAE : checkOff patA replE = true := by decide

theorem chkResAE : checkResid patA replE = true := by decide

theorem chkOffBB : checkOff patB replB = true := by decide

theorem chkResBB : checkResid patB replB = true := by decide

theorem chkOffBC : checkOff patB replC = true := by decide

theorem chkResBC : checkResid patB replC = true := by decide

theorem chkOffBD : checkOff patB replD = true := by decide

theorem chkResBD : checkResid patB replD = true := by decide

theorem chkOffBE : checkOff patB replE = true := by decide

theorem chkResBE : checkResid patB replE = true := by decide

theorem chkOffCC : checkOff patC replC = true := by decide

theorem chkResCC : checkResid patC replC = true := by decide

theorem chkOffCD : checkOff patC replD = true := by decide

theorem chkResCD : checkResid patC replD = true := by decide

theorem chkOffCE : checkOff patC replE = true := by decide

theorem chkResCE : checkResid patC replE = true := by decide

theorem chkOffDD : checkOff patD replD = true := by decide

theorem chkResDD : checkResid patD replD = true := by decide

theorem chkOffDE : checkOff patD replE = true := by decide

theorem chkResDE : checkResid patD replE = true := by decide

theorem chkOffEE : checkOff patE replE = true := by decide

theorem chkResEE : checkResid patE replE = true := by decide

/-! ### No pattern matches anywhere in the output of the full transform -/

theorem noOccA_transform (t : List Char) :
    hasOcc patA (transform t) = false := by
  have h1 : hasOcc patA (ruleA t) = false :=
    sub_self_no_occ patA_shape (hoff_of_check chkOffAA) (hres_of_check chkResAA)
      _ _ le_rfl
  have h2 : hasOcc patA (ruleB (ruleA t)) = false :=
    sub_pres_no_occ patB_shape (hoff_of_check chkOffAB) (hres_of_check chkResAB)
      _ _ h1
  have h3 : hasOcc patA (ruleC (ruleB (ruleA t))) = false :=
    sub_pres_no_occ patC_shape (hoff_of_check chkOffAC) (hres_of_check chkResAC)
      _ _ h2
  have h4 : hasOcc patA (ruleD (ruleC (ruleB (ruleA t)))) = false :=
    sub_pres_no_occ patD_shape (hoff_of_check chkOffAD) (hres_of_check chkResAD)
      _ _ h3
  exact sub_pres_no_occ patE_shape (hoff_of_check chkOffAE)
    (hres_of_check chkResAE) _ _ h4

theorem noOccB_transform (t : List Char) :
    hasOcc patB (transform t) = false := by
  have h2 : hasOcc patB (ruleB (ruleA t)) = false :=
    sub_self_no_occ patB_shape (hoff_of_check chkOffBB) (hres_of_check chkResBB)
      _ _ le_rfl
  have h3 : hasOcc patB (ruleC (ruleB (ruleA t))) = false :=
    sub_pres_no_occ patC_shape (hoff_of_check chkOffBC) (hres_of_check chkResBC)
      _ _ h2
  have h4 : hasOcc patB (ruleD (ruleC (ruleB (ruleA t)))) = false :=
    sub_pres_no_occ patD_shape (hoff_of_check chkOffBD) (hres_of_check chkResBD)
      _ _ h3
  exact sub_pres_no_occ patE_shape (hoff_of_check chkOffBE)
    (hres_of_check chkResBE) _ _ h4

theorem noOccC_transform (t : List Char) :
    hasOcc patC (transform t) = false := by
  have h3 : hasOcc patC (ruleC (ruleB (ruleA t))) = false :=
    sub_self_no_occ patC_shape (hoff_of_check chkOffCC) (hres_of_check chkResCC)
      _ _ le_rfl
  have h4 : hasOcc patC (ruleD (ruleC (ruleB (ruleA t)))) = false :=
    sub_pres_no_occ patD_shape (hoff_of_check chkOffCD) (hres_of_check chkResCD)
      _ _ h3
  exact sub_pres_no_occ patE_shape (hoff_of_check chkOffCE)
    (hres_of_check chkResCE) _ _ h4

theorem noOccD_transform (t : List Char) :
    hasOcc patD (transform t) = false := by
  have h4 : hasOcc patD (ruleD (ruleC (ruleB (ruleA t)))) = false :=
    sub_self_no_occ patD_shape (hoff_of_check chkOffDD) (hres_of_check chkResDD)
      _ _ le_rfl
  exact sub_pres_no_occ patE_shape (hoff_of_check chkOffDE)
    (hres_of_check chkResDE) _ _ h4

theorem noOccE_transform (t : List Char) :
    hasOcc patE (transform t) = false :=
  sub_self_no_occ patE_shape (hoff_of_check chkOffEE) (hres_of_check chkResEE)
    _ _ le_rfl

theorem transform_transform (t : List Char) :
    transform (transform t) = transform t := by
  show ruleE (ruleD (ruleC (ruleB (ruleA (transform t))))) = transform t
  rw [show ruleA (transform t) = transform t from
    sub_no_occ_id _ _ (noOccA_transform t)]
  rw [show ruleB (transform t) = transform t from
    sub_no_occ_id _ _ (noOccB_transform t)]
  rw [show ruleC (transform t) = transform t from
    sub_no_occ_id _ _ (noOccC_transform t)]
  rw [show ruleD (transform t) = transform t from
    sub_no_occ_id _ _ (noOccD_transform t)]
  exact sub_no_occ_id _ _ (noOccE_transform t)

/-! ### Characterisation of literal matches, and matches built from pieces -/

theorem litStrip_eq_some_iff {l cs cs' : List Char} :
    litStrip l cs = some cs' ↔ l <+: cs ∧ cs' = cs.drop l.length := by
  induction l generalizing cs with
  | nil => simp [litStrip, eq_comm]
  | cons d l ih =>
    cases cs with
    | nil => simp [litStrip]
    | cons c cs =>
      by_cases hc : c = d
      · subst hc
        simp [litStrip, ih, List.cons_prefix_cons]
      · simp only [litStrip, hc, if_neg, not_false_iff, List.cons_prefix_cons]
        constructor
        · intro h; cases h
        · rintro ⟨⟨h1, h2⟩, h3⟩; exact absurd h1.symm hc

theorem litStrip_self : ∀ l x : List Char, litStrip l (l ++ x) = some x := by
  intro l
  induction l with
  | nil => intro x; rfl
  | cons d l ih => intro x; simp [litStrip, ih]

theorem wsStrip_wsOnly {ww : List Char} (hww : ∀ c ∈ ww, isWsChar c = true)
    {c : Char} (hc : isWsChar c = false) (x : List Char) :
    wsStrip (ww ++ c :: x) = (ww.length, c :: x) := by
  induction ww with
  | nil => simp [wsStrip, hc]
  | cons b ww ih =>
    have hb : isWsChar b = true := hww b (List.mem_cons_self b ww)
    rw [List.cons_append]
    simp only [wsStrip, hb, if_pos]
    rw [ih fun a ha => hww a (List.mem_cons_of_mem _ ha)]
    simp

theorem mrun_of_matches {ts : List Tok} {w : List Char} (h : MatchesTk ts w)
    (rest : List Char) : mrun ts (w ++ rest) = some w.length := by
  induction h with
  | nil => rfl
  | @lit l ts w h ih =>
    rw [List.append_assoc]
    show (match litStrip l (l ++ (w ++ rest)) with
          | some cs' => (mrun ts cs').map (· + l.length)
          | none => none) = some (l ++ w).length
    rw [litStrip_self]
    show (mrun ts (w ++ rest)).map (· + l.length) = some (l ++ w).length
    rw [ih]
    simp [Nat.add_comm]
  | @ws ww ts c w hww hc h ih =>
    rw [List.append_assoc, List.cons_append]
    show (mrun ts (wsStrip (ww ++ c :: (w ++ rest))).2).map
      (· + (wsStrip (ww ++ c :: (w ++ rest))).1) = some (ww ++ c :: w).length
    rw [wsStrip_wsOnly hww hc]
    show (mrun ts ((c :: w) ++ rest)).map (· + ww.length) = some (ww ++ c :: w).length
    rw [ih]
    simp [Nat.add_comm]

theorem subRun_skip {p : List Tok} {r : List Char} {d : Char} {l : List Char}
    {ts : List Tok} (hpe : p = Tok.lit (d :: l) :: ts) :
    ∀ pre x, (∀ c ∈ pre, ¬c = d) → subRun p r (pre ++ x) = pre ++ subRun p r x := by
  intro pre
  induction pre with
  | nil => intro x h; simp
  | cons c pre ih =>
    intro x h
    have hm : mrun p (c :: (pre ++ x)) = none := by
      rw [hpe, mrun_lit_cons, if_neg (h c (List.mem_cons_self c pre))]
    show subStep p r ((c :: pre ++ x).length) (c :: pre ++ x) = _
    rw [List.cons_append,
      show ((c :: (pre ++ x)).length) = (pre ++ x).length + 1 by simp,
      subStep_copy_none r _ hm]
    show c :: subRun p r (pre ++ x) = _
    rw [ih x fun a ha => h a (List.mem_cons_of_mem _ ha)]
    rfl

theorem subRun_match_head {p : List Tok} {r : List Char} {c : Char}
    {w' x : List Char} (hm : mrun p ((c :: w') ++ x) = some (c :: w').length) :
    subRun p r ((c :: w') ++ x) = r ++ subRun p r x := by
  show subStep p r (((c :: w') ++ x).length) ((c :: w') ++ x) = _
  rw [List.cons_append] at hm ⊢
  rw [show ((c :: (w' ++ x)).length) = (w' ++ x).length + 1 by simp,
    subStep_match r _ hm]
  rw [List.drop_left]
  congr 1
  exact subStep_fuel_irrel _ _ x (by simp) le_rfl

theorem mrun_single_lit (l cs : List Char) :
    mrun [Tok.lit l] cs = if l <+: cs then some l.length else none := by
  by_cases hp : l <+: cs
  · obtain ⟨tail, rfl⟩ := hp
    rw [if_pos (List.prefix_append l tail)]
    show (match litStrip l (l ++ tail) with
          | some cs' => (mrun [] cs').map (· + l.length)
          | none => none) = some l.length
    rw [litStrip_self]
    show some (0 + l.length) = some l.length
    rw [Nat.zero_add]
  · rw [if_neg hp]
    cases hs : litStrip l cs with
    | none =>
      show (match litStrip l cs with
            | some cs' => (mrun [] cs').map (· + l.length)
            | none => none) = none
      rw [hs]
    | some cs' => exact absurd (litStrip_eq_some_iff.mp hs).1 hp

theorem mrun_lit_nla (l : List Char) (a : Char) (cs : List Char) :
    mrun [Tok.lit l, Tok.nla a] cs =
      if l <+: cs ∧ ¬(cs.drop l.length).head? = some a
      then some l.length else none := by
  by_cases hp : l <+: cs
  · obtain ⟨tail, rfl⟩ := hp
    have hdrop : (l ++ tail).drop l.length = tail := List.drop_left l tail
    show (match litStrip l (l ++ tail) with
          | some cs' => (mrun [Tok.nla a] cs').map (· + l.length)
          | none => none) = _
    rw [litStrip_self]
    cases tail with
    | nil =>
      rw [if_pos ⟨List.prefix_append l [], by rw [hdrop]; simp⟩]
      show some (0 + l.length) = some l.length
      rw [Nat.zero_add]
    | cons c tl =>
      by_cases hc : c = a
      · rw [if_neg]
        · show ((if c = a then none else mrun [] (c :: tl)).map (· + l.length)) = none
          rw [if_pos hc]
          rfl
        · rintro ⟨h1, h2⟩
          rw [hdrop] at h2
          exact h2 (by rw [hc]; rfl)
      · rw [if_pos ⟨List.prefix_append l (c :: tl), by rw [hdrop]; simpa using hc⟩]
        show ((if c = a then none else mrun [] (c :: tl)).map (· + l.length)) =
          some l.length
        rw [if_neg hc]
        show some (0 + l.length) = some l.length
        rw [Nat.zero_add]
  · rw [if_neg fun h => hp h.1]
    cases hs : litStrip l cs with
    | none =>
      show (match litStrip l cs with
            | some cs' => (mrun [Tok.nla a] cs').map (· + l.length)
            | none => none) = none
      rw [hs]
    | some cs' => exact absurd (litStrip_eq_some_iff.mp hs).1 hp

/-! ### Rule A signatures with arbitrary whitespace -/

theorem matches_sigA {w1 w2 w3 w4 w5 w6 w7 w8 w9 : List Char}
    (h1 : ∀ c ∈ w1, isWsChar c = true) (h2 : ∀ c ∈ w2, isWsChar c = true)
    (h3 : ∀ c ∈ w3, isWsChar c = true) (h4 : ∀ c ∈ w4, isWsChar c = true)
    (h5 : ∀ c ∈ w5, isWsChar c = true) (h6 : ∀ c ∈ w6, isWsChar c = true)
    (h7 : ∀ c ∈ w7, isWsChar c = true) (h8 : ∀ c ∈ w8, isWsChar c = true)
    (h9 : ∀ c ∈ w9, isWsChar c = true) :
    MatchesTk patA (sigA w1 w2 w3 w4 w5 w6 w7 w8 w9) := by
  have m18 : MatchesTk (patA.drop 18) ("\x7d".toList ++ []) :=
    MatchesTk.lit _ MatchesTk.nil
  have m17 : MatchesTk (patA.drop 17) (w9 ++ '\x7d' :: []) :=
    MatchesTk.ws w9 h9 (by decide) m18
  have m16 : MatchesTk (patA.drop 16) ("\x7d".toList ++ (w9 ++ '\x7d' :: [])) :=
    MatchesTk.lit _ m17
  have m15 : MatchesTk (patA.drop 15)
      (w8 ++ '\x7d' :: (w9 ++ '\x7d' :: [])) :=
    MatchesTk.ws w8 h8 (by decide) m16
  have m14 : MatchesTk (patA.drop 14)
      ("string".toList ++ (w8 ++ '\x7d' :: (w9 ++ '\x7d' :: []))) :=
    MatchesTk.lit _ m15
  have m13 : MatchesTk (patA.drop 13)
      (w7 ++ 's' :: ("tring".toList ++ (w8 ++ '\x7d' :: (w9 ++ '\x7d' :: [])))) :=
    MatchesTk.ws w7 h7 (by decide) m14
  have m12 : MatchesTk (patA.drop 12)
      ("id:".toList ++ (w7 ++ 's' :: ("tring".toList ++
        (w8 ++ '\x7d' :: (w9 ++ '\x7d' :: []))))) :=
    MatchesTk.lit _ m13
  have m11 : MatchesTk (patA.drop 11)
      (w6 ++ 'i' :: ("d:".toList ++ (w7 ++ 's' :: ("tring".toList ++
        (w8 ++ '\x7d' :: (w9 ++ '\x7d' :: [])))))) :=
    MatchesTk.ws w6 h6 (by decide) m12
  have m10 : MatchesTk (patA.drop 10)
      ("\x7b".toList ++ (w6 ++ 'i' :: ("d:".toList ++ (w7 ++ 's' ::
        ("tring".toList ++ (w8 ++ '\x7d' :: (w9 ++ '\x7d' :: []))))))) :=
    MatchesTk.lit _ m11
  have m9 : MatchesTk (patA.drop 9)
      (w5 ++ '\x7b' :: (w6 ++ 'i' :: ("d:".toList ++ (w7 ++ 's' ::
        ("tring".toList ++ (w8 ++ '\x7d' :: (w9 ++ '\x7d' :: []))))))) :=
    MatchesTk.ws w5 h5 (by decide) m10
  have m8 : MatchesTk (patA.drop 8)
      ("params:".toList ++ (w5 ++ '\x7b' :: (w6 ++ 'i' :: ("d:".toList ++
        (w7 ++ 's' :: ("tring".toList ++ (w8 ++ '\x7d' ::
          (w9 ++ '\x7d' :: [])))))))) :=
    MatchesTk.lit _ m9
  have m7 : MatchesTk (patA.drop 7)
      (w4 ++ 'p' :: ("arams:".toList ++ (w5 ++ '\x7b' :: (w6 ++ 'i' ::
        ("d:".toList ++ (w7 ++ 's' :: ("tring".toList ++ (w8 ++ '\x7d' ::
          (w9 ++ '\x7d' :: []))))))))) :=
    MatchesTk.ws w4 h4 (by decide) m8
  have m6 : MatchesTk (patA.drop 6)
      ("\x7b".toList ++ (w4 ++ 'p' :: ("arams:".toList ++ (w5 ++ '\x7b' ::
        (w6 ++ 'i' :: ("d:".toList ++ (w7 ++ 's' :: ("tring".toList ++
          (w8 ++ '\x7d' :: (w9 ++ '\x7d' :: [])))))))))) :=
    MatchesTk.lit _ m7
  have m5 : MatchesTk (patA.drop 5)
      (w3 ++ '\x7b' :: (w4 ++ 'p' :: ("arams:".toList ++ (w5 ++ '\x7b' ::
        (w6 ++ 'i' :: ("d:".toList ++ (w7 ++ 's' :: ("tring".toList ++
          (w8 ++ '\x7d' :: (w9 ++ '\x7d' :: [])))))))))) :=
    MatchesTk.ws w3 h3 (by decide) m6
  have m4 : MatchesTk (patA.drop 4)
      ("\x7d:".toList ++ (w3 ++ '\x7b' :: (w4 ++ 'p' :: ("arams:".toList ++
        (w5 ++ '\x7b' :: (w6 ++ 'i' :: ("d:".toList ++ (w7 ++ 's' ::
          ("tring".toList ++ (w8 ++ '\x7d' :: (w9 ++ '\x7d' :: []))))))))))) :=
    MatchesTk.lit _ m5
  have m3 : MatchesTk (patA.drop 3)
      (w2 ++ '\x7d' :: (":".toList ++ (w3 ++ '\x7b' :: (w4 ++ 'p' ::
        ("arams:".toList ++ (w5 ++ '\x7b' :: (w6 ++ 'i' :: ("d:".toList ++
          (w7 ++ 's' :: ("tring".toList ++ (w8 ++ '\x7d' ::
            (w9 ++ '\x7d' :: [])))))))))))) :=
    MatchesTk.ws w2 h2 (by decide) m4
  have m2 : MatchesTk (patA.drop 2)
      ("params".toList ++ (w2 ++ '\x7d' :: (":".toList ++ (w3 ++ '\x7b' ::
        (w4 ++ 'p' :: ("arams:".toList ++ (w5 ++ '\x7b' :: (w6 ++ 'i' ::
          ("d:".toList ++ (w7 ++ 's' :: ("tring".toList ++ (w8 ++ '\x7d' ::
            (w9 ++ '\x7d' :: []))))))))))))) :=
    MatchesTk.lit _ m3
  have m1 : MatchesTk (patA.drop 1)
      (w1 ++ 'p' :: ("arams".toList ++ (w2 ++ '\x7d' :: (":".toList ++
        (w3 ++ '\x7b' :: (w4 ++ 'p' :: ("arams:".toList ++ (w5 ++ '\x7b' ::
          (w6 ++ 'i' :: ("d:".toList ++ (w7 ++ 's' :: ("tring".toList ++
            (w8 ++ '\x7d' :: (w9 ++ '\x7d' :: [])))))))))))))) :=
    MatchesTk.ws w1 h1 (by decide) m2
  exact MatchesTk.lit "\x7b".toList m1

theorem subRun_match_head_ne {p : List Tok} {r w x : List Char}
    (hm : mrun p (w ++ x) = some w.length) (hw : w ≠ []) :
    subRun p r (w ++ x) = r ++ subRun p r x := by
  cases w with
  | nil => exact absurd rfl hw
  | cons c w' => exact subRun_match_head hm

/-! ### Facts about the file-loop model -/

theorem mem_runWrites_iff {env : List Char → ReadResult} {pth w : List Char} :
    (pth, w) ∈ runWrites env ↔
      pth ∈ files_to_fix ∧ (processFile (env pth)).2 = some w := by
  rw [runWrites, List.mem_filterMap]
  constructor
  · rintro ⟨q, hq, hmap⟩
    cases ho : (processFile (env q)).2 with
    | none => rw [ho] at hmap; cases hmap
    | some w' =>
      rw [ho] at hmap
      simp only [Option.map_some', Option.some.injEq, Prod.mk.injEq] at hmap
      obtain ⟨rfl, rfl⟩ := hmap
      exact ⟨hq, ho⟩
  · rintro ⟨hmem, ho⟩
    exact ⟨pth, hmem, by rw [ho]; rfl⟩

theorem fixed_ne_notFound (q pth : List Char) :
    ¬renderLine q Status.fixed = renderLine pth Status.notFound := by
  intro h
  have h1 : (renderLine q Status.fixed).head? = some '✅' := rfl
  have h2 : (renderLine pth Status.notFound).head? = some '❌' := rfl
  rw [h, h2] at h1
  exact absurd h1 (by decide)

theorem noChanges_ne_notFound (q pth : List Char) :
    ¬renderLine q Status.noChanges = renderLine pth Status.notFound := by
  intro h
  have h1 : (renderLine q Status.noChanges).head? = some '⏭' := rfl
  have h2 : (renderLine pth Status.notFound).head? = some '❌' := rfl
  rw [h, h2] at h1
  exact absurd h1 (by decide)

theorem errorProc_ne_notFound (q pth e : List Char) :
    ¬renderLine q (Status.errorProc e) = renderLine pth Status.notFound := by
  intro h
  have h1 : ((renderLine q (Status.errorProc e)).drop 2).head? = some 'E' := rfl
  have h2 : ((renderLine pth Status.notFound).drop 2).head? = some 'N' := rfl
  rw [h, h2] at h1
  exact absurd h1 (by decide)

theorem notFound_inj {q pth : List Char}
    (h : renderLine q Status.notFound = renderLine pth Status.notFound) :
    q = pth :=
  List.append_cancel_left
    (show "❌ Not found: ".toList ++ q = "❌ Not found: ".toList ++ pth from h)

theorem fileLine_eq_notFound_iff {env : List Char → ReadResult}
    {pth q : List Char} (hm : env pth = ReadResult.missing) :
    fileLine env q = renderLine pth Status.notFound ↔ q = pth := by
  constructor
  · intro h
    rw [fileLine] at h
    cases hst : (processFile (env q)).1 with
    | fixed => rw [hst] at h; exact absurd h (fixed_ne_notFound q pth)
    | noChanges => rw [hst] at h; exact absurd h (noChanges_ne_notFound q pth)
    | notFound => rw [hst] at h; exact notFound_inj h
    | errorProc e => rw [hst] at h; exact absurd h (errorProc_ne_notFound q pth e)
  · rintro rfl
    rw [fileLine, hm]
    rfl

theorem countP_congr_mem {α : Type} {p q : α → Bool} :
    ∀ {l : List α}, (∀ a ∈ l, p a = q a) → List.countP p l = List.countP q l := by
  intro l
  induction l with
  | nil => intro h; rfl
  | cons a l ih =>
    intro h
    rw [List.countP_cons, List.countP_cons, h a (List.mem_cons_self a l),
      ih fun b hb => h b (List.mem_cons_of_mem _ hb)]

theorem count_tail_zero (pth : List Char) :
    List.count (renderLine pth Status.notFound) [[], "Done!".toList] = 0 := by
  rw [List.count_eq_zero]
  intro hmem
  rcases List.mem_cons.mp hmem with h | h
  · have h1 : (renderLine pth Status.notFound).head? = some '❌' := rfl
    rw [h] at h1
    exact absurd h1 (by decide)
  · rcases List.mem_cons.mp h with h' | h'
    · have h1 : (renderLine pth Status.notFound).head? = some '❌' := rfl
      rw [h'] at h1
      exact absurd h1 (by decide)
    · simp at h'

theorem countP_eq_one_of_nodup {α : Type} [DecidableEq α] {l : List α}
    (hn : l.Nodup) {a : α} (ha : a ∈ l) :
    List.countP (fun b => decide (b = a)) l = 1 := by
  induction l with
  | nil => simp at ha
  | cons b l ih =>
    obtain ⟨hb, hnl⟩ := List.nodup_cons.mp hn
    rw [List.countP_cons]
    rcases List.mem_cons.mp ha with h | h
    · subst h
      have h0 : List.countP (fun b => decide (b = a)) l = 0 := by
        rw [List.countP_eq_zero]
        intro x hx
        simp only [decide_eq_true_eq]
        rintro rfl
        exact hb hx
      rw [h0]
      simp
    · have hba : ¬b = a := by rintro rfl; exact hb h
      rw [ih hnl h]
      simp [hba]

theorem count_notFound_line {env : List Char → ReadResult} {pth : List Char}
    (hmem : pth ∈ files_to_fix) (hm : env pth = ReadResult.missing) :
    (runLines env).count (renderLine pth Status.notFound) = 1 := by
  rw [runLines, List.count_append, count_tail_zero, Nat.add_zero]
  have hcg : ∀ q ∈ files_to_fix,
      ((fun l => l == renderLine pth Status.notFound) ∘ fileLine env) q =
        (fun b => decide (b = pth)) q := by
    intro q hq
    simp only [Function.comp_apply]
    rw [Bool.eq_iff_iff]
    simp only [beq_iff_eq, decide_eq_true_eq]
    exact fileLine_eq_notFound_iff hm
  rw [List.count, List.countP_map, countP_congr_mem hcg]
  have hnodup : files_to_fix.Nodup := by decide
  exact countP_eq_one_of_nodup hnodup hmem

theorem runLines_congr {env1 env2 : List Char → ReadResult}
    (h : ∀ p ∈ files_to_fix, env1 p = env2 p) : runLines env1 = runLines env2 := by
  rw [runLines, runLines]
  congr 1
  refine List.map_congr_left fun p hp => ?_
  rw [fileLine, fileLine, h p hp]

theorem runWrites_congr {env1 env2 : List Char → ReadResult}
    (h : ∀ p ∈ files_to_fix, env1 p = env2 p) :
    runWrites env1 = runWrites env2 := by
  rw [runWrites, runWrites]
  refine List.filterMap_congr fun p hp => ?_
  rw [h p hp]

/-! ### The claims -/

/-- C1: the per-file transform is idempotent: for every input text `t`,
applying the full rule pipeline to an already-transformed text changes
nothing (`transform (transform t) = transform t`); in particular a second run
of the rewriter over a file rewritten in the first run performs no write and
reports "no changes" for it. -/
theorem claim1_transform_idempotent :
    (∀ t : List Char, transform (transform t) = transform t) ∧
    (∀ c : List Char,
      processFile (ReadResult.found (transform c)) = (Status.noChanges, none)) := by
  refine ⟨transform_transform, fun c => ?_⟩
  simp [processFile, transform_transform c]

/-- C2: Rule D matches exactly the occurrences of the literal text
`const id = params.id` that are not immediately followed by `)`; such an
occurrence is replaced by `const { id } = await params`, while an occurrence
followed by `)` is left unchanged. -/
theorem claim2_ruleD_lookahead :
    (∀ cs : List Char,
      mrun patD cs =
        if "const id = params.id".toList <+: cs ∧
            ¬(cs.drop 20).head? = some ')'
        then some 20 else none) ∧
    ruleD "const id = params.id".toList =
      "const \x7b id \x7d = await params".toList ∧
    ruleD "const id = params.id)".toList = "const id = params.id)".toList ∧
    ruleD "const id = params.id const id = params.id)".toList =
      "const \x7b id \x7d = await params const id = params.id)".toList := by
  refine ⟨fun cs => ?_, by decide, by decide, by decide⟩
  have h := mrun_lit_nla "const id = params.id".toList ')' cs
  rw [show ("const id = params.id".toList).length = 20 from rfl] at h
  exact h

/-- C3: Rule C replaces every occurrence of the exact statement
`const id = parseInt(params.id)` with `const { id: paramId } = await params`,
a line break, four spaces of indentation, and `const id = parseInt(paramId)`. -/
theorem claim3_ruleC_parseInt :
    (∀ cs : List Char,
      mrun patC cs =
        if "const id = parseInt(params.id)".toList <+: cs
        then some 30 else none) ∧
    ruleC "const id = parseInt(params.id)".toList =
      ("const \x7b id: paramId \x7d = await params\n" ++
        "    const id = parseInt(paramId)").toList ∧
    ruleC ("x = 0\n".toList ++ "const id = parseInt(params.id)".toList ++
        "\ny".toList) = "x = 0\n".toList ++ replC ++ "\ny".toList ∧
    ruleC "const id = parseInt(params.id)const id = parseInt(params.id)".toList =
      replC ++ replC := by
  refine ⟨fun cs => ?_, by decide, by decide, by decide⟩
  have h := mrun_single_lit "const id = parseInt(params.id)".toList cs
  rw [show ("const id = parseInt(params.id)".toList).length = 30 from rfl] at h
  exact h

/-- C4: Rule A matches the single-id signature under arbitrary whitespace
(including newlines) in each of the nine gaps of the pattern and rewrites the
occurrence to the Promise-wrapped form, leaving surrounding text intact. -/
theorem claim4_ruleA_whitespace :
    (∀ pre w1 w2 w3 w4 w5 w6 w7 w8 w9 rest : List Char,
      (∀ c ∈ pre, ¬c = '\x7b') →
      wsOnly w1 → wsOnly w2 → wsOnly w3 → wsOnly w4 → wsOnly w5 →
      wsOnly w6 → wsOnly w7 → wsOnly w8 → wsOnly w9 →
      ruleA (pre ++ (sigA w1 w2 w3 w4 w5 w6 w7 w8 w9 ++ rest)) =
        pre ++ (replA ++ ruleA rest)) ∧
    ruleA "\x7b params \x7d: \x7b params: \x7b id: string \x7d \x7d".toList =
      replA := by
  constructor
  · intro pre w1 w2 w3 w4 w5 w6 w7 w8 w9 rest hpre h1 h2 h3 h4 h5 h6 h7 h8 h9
    have e1 : ruleA (pre ++ (sigA w1 w2 w3 w4 w5 w6 w7 w8 w9 ++ rest)) =
        pre ++ ruleA (sigA w1 w2 w3 w4 w5 w6 w7 w8 w9 ++ rest) :=
      subRun_skip (show patA = Tok.lit ('\x7b' :: []) :: _ from rfl) pre _ hpre
    have hm : mrun patA (sigA w1 w2 w3 w4 w5 w6 w7 w8 w9 ++ rest) =
        some (sigA w1 w2 w3 w4 w5 w6 w7 w8 w9).length :=
      mrun_of_matches (matches_sigA h1 h2 h3 h4 h5 h6 h7 h8 h9) rest
    have hne : sigA w1 w2 w3 w4 w5 w6 w7 w8 w9 ≠ [] := by
      intro h
      have hl := congrArg List.length h
      simp [sigA] at hl
    have e2 : ruleA (sigA w1 w2 w3 w4 w5 w6 w7 w8 w9 ++ rest) =
        replA ++ ruleA rest := subRun_match_head_ne hm hne
    rw [e1, e2]
  · decide

/-- C4 witness: a concrete signature with newline, tab and multi-space gaps,
preceded by unrelated text and followed by a closing parenthesis, is
rewritten to the Promise-wrapped form. -/
theorem claim4_witness :
    ruleA ("x".toList ++ (sigA "\n".toList " ".toList "".toList "\t".toList
        " ".toList "".toList " ".toList "  ".toList "\n ".toList ++
        ")".toList)) = "x".toList ++ (replA ++ ruleA ")".toList) :=
  claim4_ruleA_whitespace.1 "x".toList "\n".toList " ".toList "".toList
    "\t".toList " ".toList "".toList " ".toList "  ".toList "\n ".toList
    ")".toList (by decide) (by decide) (by decide) (by decide) (by decide)
    (by decide) (by decide) (by decide) (by decide) (by decide)

/-- C5: for a listed file that is read successfully, the file is written
(with the transformed text, reported "Fixed") exactly when the transformed
text differs from the original; otherwise nothing is written and "No
changes" is reported; in both cases its status line is in the output. -/
theorem claim5_write_iff_changed :
    ∀ (env : List Char → ReadResult) (pth c : List Char),
      pth ∈ files_to_fix → env pth = ReadResult.found c →
      fileLine env pth ∈ runLines env ∧
      processFile (env pth) =
        (if transform c = c then (Status.noChanges, none)
         else (Status.fixed, some (transform c))) ∧
      (∀ w, (pth, w) ∈ runWrites env ↔ ¬transform c = c ∧ w = transform c) := by
  intro env pth c hmem henv
  refine ⟨List.mem_append_left _ (List.mem_map.mpr ⟨pth, hmem, rfl⟩),
    by rw [henv]; rfl, fun w => ?_⟩
  rw [mem_runWrites_iff, henv]
  constructor
  · rintro ⟨h1, h2⟩
    by_cases ht : transform c = c
    · rw [show processFile (ReadResult.found c) = (Status.noChanges, none) by
        simp [processFile, ht]] at h2
      cases h2
    · rw [show processFile (ReadResult.found c) =
          (Status.fixed, some (transform c)) by simp [processFile, ht]] at h2
      exact ⟨ht, (Option.some.inj h2).symm⟩
  · rintro ⟨ht, rfl⟩
    exact ⟨hmem, by simp [processFile, ht]⟩

/-- C5 witness: a concrete run in which every listed file reads as
`const id = params.idx`; the first listed path is written with the
transformed text and reported "Fixed". -/
theorem claim5_witness :
    processFile ((fun _ => ReadResult.found "const id = params.idx".toList)
        "src/app/api/series/[id]/route.ts".toList) =
      (if transform "const id = params.idx".toList =
          "const id = params.idx".toList
       then (Status.noChanges, none)
       else (Status.fixed, some (transform "const id = params.idx".toList))) :=
  (claim5_write_iff_changed (fun _ => ReadResult.found
      "const id = params.idx".toList)
    "src/app/api/series/[id]/route.ts".toList
    "const id = params.idx".toList (by decide) rfl).2.1

/-- C6: a listed path that is missing yields exactly one "Not found" line and
no write; any other per-file error yields an "Error processing" line and no
write; in every case all listed paths are reported (the run never stops
early) and the output has one line per path plus the two final lines. -/
theorem claim6_missing_isolated :
    ∀ (env : List Char → ReadResult) (pth e : List Char),
      pth ∈ files_to_fix →
      (env pth = ReadResult.missing →
        (runLines env).count (renderLine pth Status.notFound) = 1 ∧
        ∀ w, ¬(pth, w) ∈ runWrites env) ∧
      (env pth = ReadResult.ioError e →
        fileLine env pth =
          "❌ Error processing ".toList ++ pth ++ ": ".toList ++ e ∧
        ∀ w, ¬(pth, w) ∈ runWrites env) ∧
      (runLines env).length = files_to_fix.length + 2 ∧
      (∀ q ∈ files_to_fix, fileLine env q ∈ runLines env) := by
  intro env pth e hmem
  refine ⟨fun hmiss => ⟨count_notFound_line hmem hmiss, fun w hw => ?_⟩,
    fun herr => ⟨by rw [fileLine, herr]; rfl, fun w hw => ?_⟩, ?_, ?_⟩
  · have h2 := (mem_runWrites_iff.mp hw).2
    rw [hmiss] at h2
    cases h2
  · have h2 := (mem_runWrites_iff.mp hw).2
    rw [herr] at h2
    cases h2
  · rw [runLines]
    simp
  · intro q hq
    exact List.mem_append_left _ (List.mem_map.mpr ⟨q, hq, rfl⟩)

/-- C6 witness: with every file missing, the first listed path gets exactly
one "Not found" line. -/
theorem claim6_witness :
    (runLines fun _ => ReadResult.missing).count
      (renderLine "src/app/api/series/[id]/route.ts".toList
        Status.notFound) = 1 :=
  ((claim6_missing_isolated (fun _ => ReadResult.missing)
    "src/app/api/series/[id]/route.ts".toList [] (by decide)).1 rfl).1

/-- C7: the per-file transform is the sequential composition of the five
substitution rules in the fixed order A, B, C, D, E, each rule being
leftmost-all substitution (`subRun`) of its pattern on the text produced by
the previous rule; a rule replaces all non-overlapping occurrences. -/
theorem claim7_pipeline_order :
    (∀ t : List Char,
      transform t = ruleE (ruleD (ruleC (ruleB (ruleA t)))) ∧
      ruleA t = subRun patA replA t ∧ ruleB t = subRun patB replB t ∧
      ruleC t = subRun patC replC t ∧ ruleD t = subRun patD replD t ∧
      ruleE t = subRun patE replE t) ∧
    ruleD "const id = params.id const id = params.id".toList =
      "const \x7b id \x7d = await params const \x7b id \x7d = await params".toList :=
  ⟨fun t => ⟨rfl, rfl, rfl, rfl, rfl, rfl⟩, by decide⟩

/-- C8: the run touches only the eleven hard-coded paths: its output and its
writes depend only on the file system's values at the listed paths, every
write targets a listed path, and the status lines follow the declared list
order. -/
theorem claim8_frame :
    files_to_fix.length = 11 ∧
    (∀ env, runLines env =
      files_to_fix.map (fileLine env) ++ [[], "Done!".toList]) ∧
    (∀ env1 env2, (∀ p ∈ files_to_fix, env1 p = env2 p) →
      runLines env1 = runLines env2 ∧ runWrites env1 = runWrites env2) ∧
    (∀ env pth w, (pth, w) ∈ runWrites env → pth ∈ files_to_fix) :=
  ⟨by decide, fun env => rfl,
    fun env1 env2 h => ⟨runLines_congr h, runWrites_congr h⟩,
    fun env pth w hw => (mem_runWrites_iff.mp hw).1⟩

/-- C8 witness: two file systems that agree on the listed paths produce the
same output lines, and a concrete write targets a listed path. -/
theorem claim8_witness :
    runLines (fun _ => ReadResult.missing) =
      runLines fun _ => ReadResult.missing :=
  (claim8_frame.2.2.1 (fun _ => ReadResult.missing)
    (fun _ => ReadResult.missing) fun _ _ => rfl).1

/-- C9: the console output is exactly one status line per listed path, in
list order, each in one of the four formats of the script, followed by a
single blank line and the literal line `Done!`. -/
theorem claim9_output_shape :
    ∀ env, runLines env =
      files_to_fix.map (fileLine env) ++ [[], "Done!".toList] ∧
    ∀ pth st, renderLine pth st = "✅ Fixed: ".toList ++ pth ∨
      renderLine pth st = "⏭️  No changes: ".toList ++ pth ∨
      renderLine pth st = "❌ Not found: ".toList ++ pth ∨
      ∃ e, renderLine pth st =
        "❌ Error processing ".toList ++ pth ++ ": ".toList ++ e := by
  intro env
  refine ⟨rfl, fun pth st => ?_⟩
  cases st with
  | fixed => exact Or.inl rfl
  | noChanges => exact Or.inr (Or.inl rfl)
  | notFound => exact Or.inr (Or.inr (Or.inl rfl))
  | errorProc e => exact Or.inr (Or.inr (Or.inr ⟨e, rfl⟩))

/-- C10: Rule D's lookahead rejects only a literal `)`, not identifier
characters, so `const id = params.idx` (where `.id` properly starts the name
`.idx`) is still rewritten, yielding `const { id } = await paramsx`; the file
changes and is reported "Fixed" and written. -/
theorem claim10_idx_prefix_match :
    transform "const id = params.idx".toList =
      "const \x7b id \x7d = await paramsx".toList ∧
    ¬transform "const id = params.idx".toList =
      "const id = params.idx".toList ∧
    processFile (ReadResult.found "const id = params.idx".toList) =
      (Status.fixed, some "const \x7b id \x7d = await paramsx".toList) :=
  ⟨by decide, by decide, by decide⟩

end FixApiParams
